import Mathlib

/-!
Verification of the SyncU synchronization engine (src/sync.rs, src/utils.rs,
src/models.rs) against its natural-language specification.

Paths are modelled as lists of components (Rust `PathBuf`, compared
component-wise), timestamps (`SystemTime`) and sizes (`u64`) as `Nat`,
hashes as `String` (hex digests).  File content is a list of bytes; the
SHA-256 digest of the external `sha2` crate is abstracted as an explicit
function argument `dg : Content → String` threaded through the scanner.
-/

namespace SyncU

/-- A path relative to a tree root, as a list of components (`PathBuf`). -/
abbrev Path := List String

/-- Byte content of a file (input of the hasher). -/
abbrev Content := List Nat

/-- Component-wise `Path::starts_with`: `startsWith child base` holds when
`base` is an initial run of `child`'s components. -/
def startsWith : Path → Path → Bool
  | _, [] => true
  | [], _ :: _ => false
  | c :: cs, b :: bs => c == b && startsWith cs bs

/-- `Path::parent` for relative paths: drop the final component. -/
def parentPath (p : Path) : Path := p.dropLast

/-- `FileInfo` from models.rs: metadata about one file. -/
structure FileInfo where
  path : Path
  hash : String
  modified : Nat
  size : Nat
deriving DecidableEq, Repr

/-- `SyncData` from models.rs (with the `directories` field used by
sync.rs/utils.rs): the snapshot of one tree.  The `HashMap` of files is
modelled as an association list with unique keys. -/
structure SyncData where
  files : List (Path × FileInfo)
  directories : List Path
deriving DecidableEq, Repr

/-- `HashMap::get` on the association list of files. -/
def lookupFile : List (Path × FileInfo) → Path → Option FileInfo
  | [], _ => none
  | (k, v) :: rest, p => if k = p then some v else lookupFile rest p

/-- `SyncData::default()`: the empty snapshot. -/
def emptySyncData : SyncData := { files := [], directories := [] }

/-- `Resolution` from models.rs. -/
inductive Resolution where
  | KeepLocal
  | KeepRemote
  | Skip
deriving DecidableEq, Repr

/-- `SyncAction` as used by sync.rs (file actions from models.rs plus the
directory actions consumed by `run_sync`). -/
inductive SyncAction where
  | LocalToRemote (path : Path)
  | RemoteToLocal (path : Path)
  | DeleteLocal (path : Path)
  | DeleteRemote (path : Path)
  | Conflict (path : Path)
  | CreateLocalDir (path : Path)
  | CreateRemoteDir (path : Path)
  | DeleteLocalDir (path : Path)
  | DeleteRemoteDir (path : Path)
deriving DecidableEq, Repr

/-- The path an action operates on. -/
def actionPath : SyncAction → Path
  | .LocalToRemote p => p
  | .RemoteToLocal p => p
  | .DeleteLocal p => p
  | .DeleteRemote p => p
  | .Conflict p => p
  | .CreateLocalDir p => p
  | .CreateRemoteDir p => p
  | .DeleteLocalDir p => p
  | .DeleteRemoteDir p => p

/-- Per-file branch of the diff planner, sync.rs lines 152-170: the
`match (local_info, remote_info, last_info)` of `run_sync`. -/
def planFileAction (localInfo remoteInfo lastInfo : Option FileInfo) (path : Path) :
    Option SyncAction :=
  match localInfo, remoteInfo, lastInfo with
  | some l, some r, some t =>
    if l.hash ≠ t.hash ∧ r.hash ≠ t.hash then some (.Conflict path)
    else if l.hash ≠ t.hash then some (.LocalToRemote path)
    else if r.hash ≠ t.hash then some (.RemoteToLocal path)
    else none
  | some l, some r, none =>
    if l.hash = r.hash then none else some (.Conflict path)
  | some _, none, some _ => some (.DeleteLocal path)
  | none, some _, some _ => some (.DeleteRemote path)
  | some _, none, none => some (.LocalToRemote path)
  | none, some _, none => some (.RemoteToLocal path)
  | none, none, _ => none

/-- Per-directory branch of the diff planner, sync.rs lines 98-115: the
`match (in_local, in_remote, in_last)` of `run_sync`. -/
def planDirAction (inLocal inRemote inLast : Bool) (path : Path) : Option SyncAction :=
  match inLocal, inRemote, inLast with
  | true, false, true => some (.DeleteLocalDir path)
  | false, true, true => some (.DeleteRemoteDir path)
  | true, false, false => some (.CreateRemoteDir path)
  | false, true, false => some (.CreateLocalDir path)
  | _, _, _ => none

/-- The planner's per-path decision over three snapshots. -/
def planFor (localD remoteD lastD : SyncData) (p : Path) : Option SyncAction :=
  planFileAction (lookupFile localD.files p) (lookupFile remoteD.files p)
    (lookupFile lastD.files p) p

/-- The file part of the sync plan, over the union `all_files` of the keys
of the three snapshots (given as the list `keys`). -/
def buildFilePlan (keys : List Path) (localD remoteD lastD : SyncData) : List SyncAction :=
  keys.filterMap (planFor localD remoteD lastD)

/-- The local↔remote mirror on actions (swapping the two tree labels). -/
def mirrorAction : SyncAction → SyncAction
  | .LocalToRemote p => .RemoteToLocal p
  | .RemoteToLocal p => .LocalToRemote p
  | .DeleteLocal p => .DeleteRemote p
  | .DeleteRemote p => .DeleteLocal p
  | .Conflict p => .Conflict p
  | .CreateLocalDir p => .CreateRemoteDir p
  | .CreateRemoteDir p => .CreateLocalDir p
  | .DeleteLocalDir p => .DeleteRemoteDir p
  | .DeleteRemoteDir p => .DeleteLocalDir p

theorem planFileAction_path {l r t : Option FileInfo} {q : Path} {a : SyncAction}
    (h : planFileAction l r t q = some a) : actionPath a = q := by
  rcases l with _ | l <;> rcases r with _ | r <;> rcases t with _ | t <;>
    simp only [planFileAction] at h <;>
    (try split_ifs at h) <;> (cases h) <;> rfl

/-- Claim C1, counterexample: a path present in all three snapshots whose
local and remote hashes are equal to each other but differ from the
baseline hash is planned as a `Conflict`, not as the no-op the spec's
converged rule demands. -/
theorem planner_converged_noop_cex :
    planFileAction
      (some { path := ["a.txt"], hash := "h1", modified := 1, size := 1 })
      (some { path := ["a.txt"], hash := "h1", modified := 2, size := 1 })
      (some { path := ["a.txt"], hash := "h0", modified := 0, size := 1 })
      ["a.txt"]
      = some (SyncAction.Conflict ["a.txt"])
    ∧ ("h1" : String) ≠ "h0" := by
  decide

/-- Claim C1 (amended): in the all-present case the planner emits Conflict
whenever both hashes differ from the baseline (even when the local and
remote hashes are equal to each other — there is no converged no-op),
CopyToRemote when only the local hash changed, CopyToLocal when only the
remote hash changed, and no action when neither changed. -/
theorem planner_all_present_rule (l r t : FileInfo) (p : Path) :
    (l.hash ≠ t.hash ∧ r.hash ≠ t.hash →
      planFileAction (some l) (some r) (some t) p = some (.Conflict p))
    ∧ (l.hash ≠ t.hash ∧ r.hash = t.hash →
      planFileAction (some l) (some r) (some t) p = some (.LocalToRemote p))
    ∧ (l.hash = t.hash ∧ r.hash ≠ t.hash →
      planFileAction (some l) (some r) (some t) p = some (.RemoteToLocal p))
    ∧ (l.hash = t.hash ∧ r.hash = t.hash →
      planFileAction (some l) (some r) (some t) p = none) := by
  refine ⟨fun h => ?_, fun h => ?_, fun h => ?_, fun h => ?_⟩ <;>
    simp [planFileAction, h.1, h.2]

/-- Concrete instance of `planner_all_present_rule`: only the local hash
changed, so the plan copies local to remote. -/
theorem planner_all_present_rule_witness :
    planFileAction
      (some { path := ["w.txt"], hash := "new", modified := 5, size := 3 })
      (some { path := ["w.txt"], hash := "old", modified := 1, size := 2 })
      (some { path := ["w.txt"], hash := "old", modified := 1, size := 2 })
      ["w.txt"]
      = some (SyncAction.LocalToRemote ["w.txt"]) := by
  exact (planner_all_present_rule
    { path := ["w.txt"], hash := "new", modified := 5, size := 3 }
    { path := ["w.txt"], hash := "old", modified := 1, size := 2 }
    { path := ["w.txt"], hash := "old", modified := 1, size := 2 }
    ["w.txt"]).2.1 (by decide)

/-- Claim C4: when a path is present in all three snapshots and both the
local and remote hashes differ from the baseline hash and from each other,
the file plan contains Conflict for that path and no one-directional copy
for it. -/
theorem conflict_soundness (keys : List Path) (localD remoteD lastD : SyncData)
    (p : Path) (l r t : FileInfo)
    (hk : p ∈ keys)
    (hl : lookupFile localD.files p = some l)
    (hr : lookupFile remoteD.files p = some r)
    (ht : lookupFile lastD.files p = some t)
    (h1 : l.hash ≠ t.hash) (h2 : r.hash ≠ t.hash) (_h3 : l.hash ≠ r.hash) :
    SyncAction.Conflict p ∈ buildFilePlan keys localD remoteD lastD
    ∧ SyncAction.LocalToRemote p ∉ buildFilePlan keys localD remoteD lastD
    ∧ SyncAction.RemoteToLocal p ∉ buildFilePlan keys localD remoteD lastD := by
  have hplan : planFor localD remoteD lastD p = some (.Conflict p) := by
    simp [planFor, hl, hr, ht, planFileAction, h1, h2]
  refine ⟨List.mem_filterMap.mpr ⟨p, hk, hplan⟩, fun hmem => ?_, fun hmem => ?_⟩
  · rcases List.mem_filterMap.mp hmem with ⟨q, _hq, hplq⟩
    simp only [planFor] at hplq
    have hq : actionPath (SyncAction.LocalToRemote p) = q := planFileAction_path hplq
    simp only [actionPath] at hq
    subst hq
    rw [show planFileAction (lookupFile localD.files p) (lookupFile remoteD.files p)
        (lookupFile lastD.files p) p = planFor localD remoteD lastD p from rfl,
      hplan] at hplq
    cases hplq
  · rcases List.mem_filterMap.mp hmem with ⟨q, _hq, hplq⟩
    simp only [planFor] at hplq
    have hq : actionPath (SyncAction.RemoteToLocal p) = q := planFileAction_path hplq
    simp only [actionPath] at hq
    subst hq
    rw [show planFileAction (lookupFile localD.files p) (lookupFile remoteD.files p)
        (lookupFile lastD.files p) p = planFor localD remoteD lastD p from rfl,
      hplan] at hplq
    cases hplq

/-- Concrete instance of `conflict_soundness`: a doubly-edited path with
three distinct hashes is planned as a Conflict. -/
theorem conflict_soundness_witness :
    SyncAction.Conflict ["c.txt"] ∈ buildFilePlan [["c.txt"]]
      { files := [(["c.txt"], { path := ["c.txt"], hash := "h1", modified := 3, size := 1 })],
        directories := [] }
      { files := [(["c.txt"], { path := ["c.txt"], hash := "h2", modified := 4, size := 1 })],
        directories := [] }
      { files := [(["c.txt"], { path := ["c.txt"], hash := "h0", modified := 1, size := 1 })],
        directories := [] } := by
  exact (conflict_soundness [["c.txt"]] _ _ _ ["c.txt"]
    { path := ["c.txt"], hash := "h1", modified := 3, size := 1 }
    { path := ["c.txt"], hash := "h2", modified := 4, size := 1 }
    { path := ["c.txt"], hash := "h0", modified := 1, size := 1 }
    (by decide) (by decide) (by decide) (by decide)
    (by decide) (by decide) (by decide)).1

theorem planFileAction_congr_two (a b a2 b2 : FileInfo) (p : Path)
    (H : a.hash = b.hash ↔ a2.hash = b2.hash) :
    planFileAction (some a) (some b) none p = planFileAction (some a2) (some b2) none p := by
  by_cases hab : a.hash = b.hash
  · have hab2 := H.mp hab
    simp [planFileAction, hab, hab2]
  · have hab2 : ¬a2.hash = b2.hash := fun h => hab (H.mpr h)
    simp [planFileAction, hab, hab2]

theorem planFileAction_congr_three (a b c a2 b2 c2 : FileInfo) (p : Path)
    (H1 : a.hash = c.hash ↔ a2.hash = c2.hash)
    (H2 : b.hash = c.hash ↔ b2.hash = c2.hash) :
    planFileAction (some a) (some b) (some c) p
      = planFileAction (some a2) (some b2) (some c2) p := by
  by_cases hac : a.hash = c.hash <;> by_cases hbc : b.hash = c.hash
  · have g1 := H1.mp hac
    have g2 := H2.mp hbc
    simp [planFileAction, hac, hbc, g1, g2]
  · have g1 := H1.mp hac
    have g2 : ¬b2.hash = c2.hash := fun h => hbc (H2.mpr h)
    simp [planFileAction, hac, hbc, g1, g2]
  · have g1 : ¬a2.hash = c2.hash := fun h => hac (H1.mpr h)
    have g2 := H2.mp hbc
    simp [planFileAction, hac, hbc, g1, g2]
  · have g1 : ¬a2.hash = c2.hash := fun h => hac (H1.mpr h)
    have g2 : ¬b2.hash = c2.hash := fun h => hbc (H2.mpr h)
    simp [planFileAction, hac, hbc, g1, g2]

/-- Claim C9: the per-path planner decision is a function of presence and
pairwise hash equality only (first conjunct), and swapping the local and
remote snapshots mirrors every planned action, for files (second conjunct)
and for directories (third conjunct). -/
theorem planner_deterministic_symmetric :
    (∀ (l r t l2 r2 t2 : Option FileInfo) (p : Path),
      l.isSome = l2.isSome → r.isSome = r2.isSome → t.isSome = t2.isSome →
      (∀ a b a2 b2, l = some a → r = some b → l2 = some a2 → r2 = some b2 →
        (a.hash = b.hash ↔ a2.hash = b2.hash)) →
      (∀ a c a2 c2, l = some a → t = some c → l2 = some a2 → t2 = some c2 →
        (a.hash = c.hash ↔ a2.hash = c2.hash)) →
      (∀ b c b2 c2, r = some b → t = some c → r2 = some b2 → t2 = some c2 →
        (b.hash = c.hash ↔ b2.hash = c2.hash)) →
      planFileAction l r t p = planFileAction l2 r2 t2 p)
    ∧ (∀ (l r t : Option FileInfo) (p : Path),
      planFileAction r l t p = Option.map mirrorAction (planFileAction l r t p))
    ∧ (∀ (il ir it : Bool) (p : Path),
      planDirAction ir il it p = Option.map mirrorAction (planDirAction il ir it p)) := by
  refine ⟨?_, ?_, ?_⟩
  · intro l r t l2 r2 t2 p hl hr ht hlr hlt hrt
    rcases l with _ | a <;> rcases l2 with _ | a2 <;> simp only [Option.isSome] at hl <;>
      try cases hl
    all_goals rcases r with _ | b <;> rcases r2 with _ | b2 <;>
      simp only [Option.isSome] at hr <;> try cases hr
    all_goals rcases t with _ | c <;> rcases t2 with _ | c2 <;>
      simp only [Option.isSome] at ht <;> try cases ht
    all_goals first
      | rfl
      | exact planFileAction_congr_two _ _ _ _ _ (hlr _ _ _ _ rfl rfl rfl rfl)
      | exact planFileAction_congr_three _ _ _ _ _ _ _
          (hlt _ _ _ _ rfl rfl rfl rfl) (hrt _ _ _ _ rfl rfl rfl rfl)
  · intro l r t p
    rcases l with _ | a <;> rcases r with _ | b <;> rcases t with _ | c <;>
      simp only [planFileAction, Option.map, mirrorAction]
    · by_cases hab : a.hash = b.hash
      · simp [hab]
      · simp [hab, Ne.symm hab, mirrorAction]
    · by_cases hac : a.hash = c.hash <;> by_cases hbc : b.hash = c.hash <;>
        simp [hac, hbc, mirrorAction]
  · intro il ir it p
    cases il <;> cases ir <;> cases it <;> rfl

/-- Concrete instance of `planner_deterministic_symmetric`: two triples
that agree on presence and on all pairwise hash (in)equalities get the
same planned action. -/
theorem planner_deterministic_symmetric_witness :
    planFileAction
      (some { path := ["p"], hash := "x", modified := 1, size := 1 })
      (some { path := ["p"], hash := "y", modified := 1, size := 1 })
      (some { path := ["p"], hash := "z", modified := 1, size := 1 }) ["p"]
    = planFileAction
      (some { path := ["p"], hash := "u", modified := 9, size := 9 })
      (some { path := ["p"], hash := "v", modified := 9, size := 9 })
      (some { path := ["p"], hash := "w", modified := 9, size := 9 }) ["p"] := by
  refine planner_deterministic_symmetric.1 _ _ _ _ _ _ ["p"] rfl rfl rfl ?_ ?_ ?_ <;>
    (intro x y x2 y2 hx hy hx2 hy2; cases hx; cases hy; cases hx2; cases hy2; decide)

/-!  Tree scanner (utils.rs, `scan_directory_with_progress` and
`calculate_hash`).  One walkdir entry is modelled as a `ScanEntry`:
`metaOk` is whether `fs::metadata` succeeded, `modifiedOk` whether
`metadata.modified()` succeeded, and `content` is the byte content read
during hashing (`none` models an I/O error inside `calculate_hash`, which
`calculate_hash` propagates as `Err` to the scanner).  The stop flag is
abstracted as the `stopped` argument of `scan_directory_with_progress`;
progress messages are pure output and are not modelled. -/

/-- A single filesystem entry as seen by the scanner. -/
structure ScanEntry where
  fileName : String
  relPath : Path
  isDir : Bool
  metaOk : Bool
  modifiedOk : Bool
  modified : Nat
  size : Nat
  content : Option Content
deriving DecidableEq, Repr

/-- The scanner's skip test for the engine's own control files. -/
def isControlName (s : String) : Bool :=
  s == ".syncu_metadata.json" || s == ".syncu_log.txt"

/-- Per-entry body of the scanner's parallel map (utils.rs lines 73-163):
`Sum.inl` records a directory, `Sum.inr` a file record, `none` an entry
that contributes nothing (skipped, or any per-entry error). -/
def processEntry (dg : Content → String) (last : SyncData) (e : ScanEntry) :
    Option (Path ⊕ (Path × FileInfo)) :=
  if isControlName e.fileName then none
  else if e.relPath = [] then none
  else if e.isDir then some (Sum.inl e.relPath)
  else if e.metaOk = false then none
  else if e.modifiedOk = false then none
  else
    let hashBranch : Option (Path ⊕ (Path × FileInfo)) :=
      match e.content with
      | some c => some (Sum.inr (e.relPath,
          { path := e.relPath, hash := dg c, modified := e.modified, size := e.size }))
      | none => none
    match lookupFile last.files e.relPath with
    | some li =>
      if li.modified = e.modified ∧ li.size = e.size then
        some (Sum.inr (e.relPath,
          { path := e.relPath, hash := li.hash, modified := e.modified, size := e.size }))
      else hashBranch
    | none => hashBranch

/-- Collecting the per-entry results into a snapshot (utils.rs 170-182). -/
def scanDirectory (dg : Content → String) (last : SyncData)
    (entries : List ScanEntry) : SyncData :=
  { files := entries.filterMap (fun e =>
      match processEntry dg last e with
      | some (Sum.inr kv) => some kv
      | _ => none)
  , directories := entries.filterMap (fun e =>
      match processEntry dg last e with
      | some (Sum.inl d) => some d
      | _ => none) }

/-- `scan_directory_with_progress`: returns no snapshot when the stop flag
was raised, otherwise the collected snapshot.  No per-entry failure
reaches the function result. -/
def scan_directory_with_progress (dg : Content → String) (last : SyncData)
    (entries : List ScanEntry) (stopped : Bool) : Option SyncData :=
  if stopped then none else some (scanDirectory dg last entries)

/-!  Metadata store (utils.rs, `load_sync_data`).  The on-disk metadata
file is modelled by `MetadataFile`: `missing` when `path.exists()` is
false, and `found parsed` otherwise, where `parsed = none` models content
that `serde_json::from_reader` rejects (corrupt). -/

/-- State of the persisted metadata file. -/
inductive MetadataFile where
  | missing
  | found (parsed : Option SyncData)
deriving DecidableEq

/-- The error a failed load propagates (`Box<dyn Error>` from serde). -/
inductive SyncError where
  | serde
deriving DecidableEq

/-- `load_sync_data` (utils.rs lines 193-201): missing file yields the
default (empty) snapshot; an unparsable file propagates the serde error
through the `?` operator. -/
def load_sync_data : MetadataFile → Except SyncError SyncData
  | .missing => .ok emptySyncData
  | .found none => .error .serde
  | .found (some d) => .ok d

/-- Claim C2, counterexample: a present-but-corrupt metadata file makes
`load_sync_data` return an error (which `run_sync` propagates, failing the
run) instead of the empty snapshot the spec promises. -/
theorem load_corrupt_cex :
    load_sync_data (MetadataFile.found none) = Except.error SyncError.serde
    ∧ load_sync_data (MetadataFile.found none) ≠ Except.ok emptySyncData := by
  exact ⟨rfl, fun h => Except.noConfusion h⟩

/-- Claim C2 (amended): a missing metadata file yields the empty snapshot
without error, but a corrupt (non-deserializable) file is an error that
aborts the run. -/
theorem load_missing_empty_corrupt_error :
    load_sync_data MetadataFile.missing = Except.ok emptySyncData
    ∧ load_sync_data (MetadataFile.found none) = Except.error SyncError.serde := by
  exact ⟨rfl, rfl⟩

/-- Claim C3, counterexample: a file whose metadata read fails is silently
dropped — the scan still returns a snapshot, and that snapshot has no
record at the failing file's path. -/
theorem scan_silent_omit_cex :
    scan_directory_with_progress (fun _ => "h") emptySyncData
      [{ fileName := "bad.txt", relPath := ["bad.txt"], isDir := false,
         metaOk := false, modifiedOk := true, modified := 0, size := 0,
         content := some [] }] false
      = some emptySyncData
    ∧ lookupFile (scanDirectory (fun _ => "h") emptySyncData
        [{ fileName := "bad.txt", relPath := ["bad.txt"], isDir := false,
           metaOk := false, modifiedOk := true, modified := 0, size := 0,
           content := some [] }]).files ["bad.txt"] = none := by
  exact ⟨rfl, rfl⟩

/-- Claim C3 (amended): an I/O error while reading a file's metadata,
modification time, or content does not abort the scan; the failing file is
silently omitted from the snapshot and the scan still returns a snapshot
whenever no stop was requested. -/
theorem scan_omits_unreadable (dg : Content → String) (last : SyncData)
    (entries : List ScanEntry) (e : ScanEntry) :
    (e.isDir = false → e.metaOk = false → processEntry dg last e = none)
    ∧ (e.isDir = false → e.modifiedOk = false → processEntry dg last e = none)
    ∧ (e.isDir = false → e.content = none → lookupFile last.files e.relPath = none →
        processEntry dg last e = none)
    ∧ scan_directory_with_progress dg last entries false
        = some (scanDirectory dg last entries) := by
  refine ⟨fun hd hm => ?_, fun hd hm => ?_, fun hd hc hlook => ?_, rfl⟩
  · simp only [processEntry]
    split_ifs with h1 h2 h3 <;> first | rfl | simp [hd] at h3
  · simp only [processEntry]
    split_ifs with h1 h2 h3 <;> first | rfl | simp [hd] at h3
  · simp only [processEntry]
    split_ifs with h1 h2 h3 h4 h5
    all_goals try rfl
    all_goals try simp [hd] at h3
    all_goals rw [hlook, hc]

/-- Concrete instance of `scan_omits_unreadable`: the entry with a failed
metadata read contributes nothing to the snapshot. -/
theorem scan_omits_unreadable_witness :
    processEntry (fun _ => "h") emptySyncData
      { fileName := "bad.txt", relPath := ["bad.txt"], isDir := false,
        metaOk := false, modifiedOk := true, modified := 0, size := 0,
        content := some [] } = none := by
  exact (scan_omits_unreadable (fun _ => "h") emptySyncData []
    { fileName := "bad.txt", relPath := ["bad.txt"], isDir := false,
      metaOk := false, modifiedOk := true, modified := 0, size := 0,
      content := some [] }).1 rfl rfl

/-- Claim C8: a scanned file reuses the cached baseline hash exactly when
the baseline holds a record at the same relative path with equal
modification time and size; otherwise its hash is the digest of the file's
current content (the digest function `dg` stands for the sha2 SHA-256
used by `calculate_hash`). -/
theorem hash_cache_correct (dg : Content → String) (last : SyncData) (e : ScanEntry)
    (hctl : isControlName e.fileName = false)
    (hne : e.relPath ≠ [])
    (hd : e.isDir = false)
    (hm : e.metaOk = true)
    (hmod : e.modifiedOk = true) :
    (∀ li, lookupFile last.files e.relPath = some li →
      li.modified = e.modified → li.size = e.size →
      processEntry dg last e = some (Sum.inr (e.relPath,
        { path := e.relPath, hash := li.hash, modified := e.modified, size := e.size })))
    ∧ (∀ c, e.content = some c →
      (∀ li, lookupFile last.files e.relPath = some li →
        ¬(li.modified = e.modified ∧ li.size = e.size)) →
      processEntry dg last e = some (Sum.inr (e.relPath,
        { path := e.relPath, hash := dg c, modified := e.modified, size := e.size }))) := by
  constructor
  · intro li hlook h1 h2
    simp [processEntry, hctl, hne, hd, hm, hmod, hlook, h1, h2]
  · intro c hc hmiss
    cases hl : lookupFile last.files e.relPath with
    | none => simp [processEntry, hctl, hne, hd, hm, hmod, hl, hc]
    | some li =>
      have hstale := hmiss li hl
      simp [processEntry, hctl, hne, hd, hm, hmod, hl, hc, hstale]

/-- Concrete instance of `hash_cache_correct`: size and mtime unchanged,
so the cached hash is reused and the hasher is not consulted. -/
theorem hash_cache_correct_witness :
    processEntry (fun _ => "fresh")
      { files := [(["a"], { path := ["a"], hash := "cached", modified := 7, size := 3 })],
        directories := [] }
      { fileName := "a", relPath := ["a"], isDir := false,
        metaOk := true, modifiedOk := true, modified := 7, size := 3,
        content := none }
      = some (Sum.inr (["a"],
        { path := ["a"], hash := "cached", modified := 7, size := 3 })) := by
  exact (hash_cache_correct (fun _ => "fresh")
    { files := [(["a"], { path := ["a"], hash := "cached", modified := 7, size := 3 })],
      directories := [] }
    { fileName := "a", relPath := ["a"], isDir := false,
      metaOk := true, modifiedOk := true, modified := 7, size := 3,
      content := none }
    (by decide) (by decide) rfl rfl rfl).1
    { path := ["a"], hash := "cached", modified := 7, size := 3 } rfl rfl rfl

/-!  Facts about component-wise `startsWith`, shared by the pruning
helpers and the empty-directory cleanup. -/

theorem startsWith_refl (p : Path) : startsWith p p = true := by
  induction p with
  | nil => rfl
  | cons a as ih => simp [startsWith, ih]

theorem startsWith_trans {a b c : Path} (h1 : startsWith a b = true)
    (h2 : startsWith b c = true) : startsWith a c = true := by
  induction c generalizing a b with
  | nil => cases a <;> rfl
  | cons x xs ih =>
    cases b with
    | nil => simp [startsWith] at h2
    | cons y ys =>
      cases a with
      | nil => simp [startsWith] at h1
      | cons z zs =>
        simp only [startsWith, Bool.and_eq_true, beq_iff_eq] at h1 h2 ⊢
        exact ⟨h1.1.trans h2.1, ih h1.2 h2.2⟩

theorem startsWith_length {a b : Path} (h : startsWith a b = true) :
    b.length ≤ a.length := by
  induction b generalizing a with
  | nil => simp
  | cons x xs ih =>
    cases a with
    | nil => simp [startsWith] at h
    | cons y ys =>
      simp only [startsWith, Bool.and_eq_true] at h
      simpa using ih h.2

theorem startsWith_antisymm {a b : Path} (h1 : startsWith a b = true)
    (h2 : startsWith b a = true) : a = b := by
  induction a generalizing b with
  | nil => cases b with
    | nil => rfl
    | cons x xs => simp [startsWith] at h1
  | cons y ys ih =>
    cases b with
    | nil => simp [startsWith] at h2
    | cons x xs =>
      simp only [startsWith, Bool.and_eq_true, beq_iff_eq] at h1 h2
      exact by rw [h2.1, ih h1.2 h2.2]

theorem startsWith_dropLast (p : Path) : startsWith p p.dropLast = true := by
  induction p with
  | nil => rfl
  | cons a as ih =>
    cases as with
    | nil => rfl
    | cons b bs => simp [List.dropLast, startsWith, ih]

theorem startsWith_nil_eq {q : Path} (h : startsWith [] q = true) : q = [] := by
  cases q with
  | nil => rfl
  | cons x xs => simp [startsWith] at h

theorem startsWith_iff_take {a b : Path} : startsWith a b = true ↔ a.take b.length = b := by
  induction b generalizing a with
  | nil => cases a <;> simp [startsWith]
  | cons x xs ih =>
    cases a with
    | nil => simp [startsWith]
    | cons y ys => simp [startsWith, ih]

theorem startsWith_length_lt {a b : Path} (h : startsWith a b = true)
    (hne : b ≠ a) : b.length < a.length := by
  have hle := startsWith_length h
  rcases lt_or_eq_of_le hle with hlt | heq
  · exact hlt
  · exfalso
    apply hne
    have := startsWith_iff_take.mp h
    rw [heq, List.take_length] at this
    exact this.symm

theorem startsWith_dropLast_of_ne {a b : Path} (h : startsWith a b = true)
    (hne : b ≠ a) : startsWith a.dropLast b = true := by
  have hlt := startsWith_length_lt h hne
  apply startsWith_iff_take.mpr
  rw [List.dropLast_eq_take, List.take_take, min_eq_left (by omega)]
  exact startsWith_iff_take.mp h

/-!  Directory-set pruning (utils.rs, `prune_ancestor_paths` and
`prune_descendant_paths`), applied by `run_sync` to the creation sets and
the deletion sets respectively (sync.rs lines 117-121).  The Rust
`HashSet` is modelled as a list; membership is all the claims use. -/

/-- `prune_ancestor_paths`: drop every path that has a strict descendant
in the set (so the deepest path of each nested chain is kept). -/
def prune_ancestor_paths (paths : List Path) : List Path :=
  paths.filter (fun p1 => !(paths.any (fun p2 => !(p1 == p2) && startsWith p2 p1)))

/-- `prune_descendant_paths`: drop every path that has a strict ancestor
in the set (so the topmost path of each nested chain is kept). -/
def prune_descendant_paths (paths : List Path) : List Path :=
  paths.filter (fun p1 => !(paths.any (fun p2 => !(p1 == p2) && startsWith p1 p2)))

theorem mem_prune_ancestor (paths : List Path) (p : Path) :
    p ∈ prune_ancestor_paths paths ↔
      p ∈ paths ∧ ∀ q ∈ paths, q ≠ p → startsWith q p = false := by
  simp only [prune_ancestor_paths, List.mem_filter, Bool.not_eq_true',
    List.any_eq_false, Bool.and_eq_true, Bool.not_eq_true', not_and]
  constructor
  · rintro ⟨hp, hf⟩
    exact ⟨hp, fun q hq hne => Bool.eq_false_iff.mpr (hf q hq (beq_eq_false_iff_ne.mpr (Ne.symm hne)))⟩
  · rintro ⟨hp, hf⟩
    exact ⟨hp, fun q hq hbe => Bool.eq_false_iff.mp (hf q hq (Ne.symm (beq_eq_false_iff_ne.mp hbe)))⟩

theorem mem_prune_descendant (paths : List Path) (p : Path) :
    p ∈ prune_descendant_paths paths ↔
      p ∈ paths ∧ ∀ q ∈ paths, q ≠ p → startsWith p q = false := by
  simp only [prune_descendant_paths, List.mem_filter, Bool.not_eq_true',
    List.any_eq_false, Bool.and_eq_true, Bool.not_eq_true', not_and]
  constructor
  · rintro ⟨hp, hf⟩
    exact ⟨hp, fun q hq hne => Bool.eq_false_iff.mpr (hf q hq (beq_eq_false_iff_ne.mpr (Ne.symm hne)))⟩
  · rintro ⟨hp, hf⟩
    exact ⟨hp, fun q hq hbe => Bool.eq_false_iff.mp (hf q hq (Ne.symm (beq_eq_false_iff_ne.mp hbe)))⟩

theorem exists_length_max : ∀ (l : List Path), l ≠ [] →
    ∃ m ∈ l, ∀ b ∈ l, b.length ≤ m.length
  | [], h => absurd rfl h
  | [a], _ => ⟨a, by simp, by simp⟩
  | a :: b :: bs, _ => by
    obtain ⟨m, hm, hmax⟩ := exists_length_max (b :: bs) (by simp)
    by_cases hc : a.length ≤ m.length
    · refine ⟨m, List.mem_cons_of_mem _ hm, fun x hx => ?_⟩
      rcases List.mem_cons.mp hx with rfl | hx
      · exact hc
      · exact hmax x hx
    · refine ⟨a, List.mem_cons_self _ _, fun x hx => ?_⟩
      rcases List.mem_cons.mp hx with rfl | hx
      · exact le_refl _
      · exact (hmax x hx).trans (le_of_not_le hc)

theorem exists_length_min : ∀ (l : List Path), l ≠ [] →
    ∃ m ∈ l, ∀ b ∈ l, m.length ≤ b.length
  | [], h => absurd rfl h
  | [a], _ => ⟨a, by simp, by simp⟩
  | a :: b :: bs, _ => by
    obtain ⟨m, hm, hmin⟩ := exists_length_min (b :: bs) (by simp)
    by_cases hc : m.length ≤ a.length
    · refine ⟨m, List.mem_cons_of_mem _ hm, fun x hx => ?_⟩
      rcases List.mem_cons.mp hx with rfl | hx
      · exact hc
      · exact hmin x hx
    · refine ⟨a, List.mem_cons_self _ _, fun x hx => ?_⟩
      rcases List.mem_cons.mp hx with rfl | hx
      · exact le_refl _
      · exact (le_of_not_le hc).trans (hmin x hx)

/-- Claim C5, counterexample: for the creation set `{a, a/b}` the pruning
keeps the deepest path `a/b` and drops the topmost ancestor `a` — the
opposite of the spec's "retain only topmost missing ancestors". -/
theorem prune_creation_topmost_cex :
    prune_ancestor_paths [["a"], ["a", "b"]] = [["a", "b"]]
    ∧ ["a"] ∉ prune_ancestor_paths [["a"], ["a", "b"]]
    ∧ startsWith ["a", "b"] ["a"] = true := by
  decide

/-- Claim C5 (amended): creation sets retain exactly the paths with no
strict descendant in the set (the deepest of each chain — ancestors being
implied by recursive creation, every scheduled path is an ancestor of some
retained path); deletion sets retain exactly the paths with no strict
ancestor in the set (the topmost of each chain — every scheduled path is a
descendant of some retained path). -/
theorem prune_dirs_spec (paths : List Path) (p : Path) :
    (p ∈ prune_ancestor_paths paths ↔
      p ∈ paths ∧ ∀ q ∈ paths, q ≠ p → startsWith q p = false)
    ∧ (p ∈ prune_descendant_paths paths ↔
      p ∈ paths ∧ ∀ q ∈ paths, q ≠ p → startsWith p q = false)
    ∧ (p ∈ paths → ∃ q ∈ prune_ancestor_paths paths, startsWith q p = true)
    ∧ (p ∈ paths → ∃ q ∈ prune_descendant_paths paths, startsWith p q = true) := by
  refine ⟨mem_prune_ancestor paths p, mem_prune_descendant paths p, fun hp => ?_, fun hp => ?_⟩
  · have hpc : p ∈ paths.filter (fun q => startsWith q p) := by
      simp [List.mem_filter, hp, startsWith_refl]
    obtain ⟨m, hm, hmax⟩ := exists_length_max _ (List.ne_nil_of_mem hpc)
    rw [List.mem_filter] at hm
    refine ⟨m, (mem_prune_ancestor paths m).mpr ⟨hm.1, fun q hq hne => ?_⟩, hm.2⟩
    by_contra hc
    rw [Bool.not_eq_false] at hc
    have hqp : startsWith q p = true := startsWith_trans hc hm.2
    have hqc : q ∈ paths.filter (fun r => startsWith r p) := by
      simp [List.mem_filter, hq, hqp]
    have hlen := hmax q hqc
    exact absurd (startsWith_length_lt hc (Ne.symm hne)) (by omega)
  · have hpc : p ∈ paths.filter (fun q => startsWith p q) := by
      simp [List.mem_filter, hp, startsWith_refl]
    obtain ⟨m, hm, hmin⟩ := exists_length_min _ (List.ne_nil_of_mem hpc)
    rw [List.mem_filter] at hm
    refine ⟨m, (mem_prune_descendant paths m).mpr ⟨hm.1, fun q hq hne => ?_⟩, hm.2⟩
    by_contra hc
    rw [Bool.not_eq_false] at hc
    have hpq : startsWith p q = true := startsWith_trans hm.2 hc
    have hqc : q ∈ paths.filter (fun r => startsWith p r) := by
      simp [List.mem_filter, hq, hpq]
    have hlen := hmin q hqc
    exact absurd (startsWith_length_lt hc hne) (by omega)

/-- Concrete instance of `prune_dirs_spec`: in the creation set
`{a, a/b}` the scheduled path `a` is covered by the retained descendant
`a/b`. -/
theorem prune_dirs_spec_witness :
    ∃ q ∈ prune_ancestor_paths [["a"], ["a", "b"]], startsWith q ["a"] = true := by
  exact (prune_dirs_spec [["a"], ["a", "b"]] ["a"]).2.2.1 (by decide)

/-!  Copy engine (utils.rs, `copy_large_file_with_progress`).  The loop is
driven by a list of read events: `some n` is a successful `source.read`
of `n` bytes (end of file is the end of the list), `none` a read failure
propagated as `Err`.  `stopAt = some i` means the `Stop` message is seen
by the `try_recv` check of iteration `i`.  The second component of the
result is the destination file: `none` once deleted, `some n` when it
holds `n` written bytes.  Progress messages are pure output and are not
modelled. -/

/-- The copy loop (utils.rs lines 220-253): check for Stop (delete the
partial destination and return `Ok(true)`), then read (propagating
errors), write, and continue. -/
def copyLoop (stopAt : Option Nat) :
    Nat → Nat → List (Option Nat) → Except Unit Bool × Option Nat
  | i, written, reads =>
    if stopAt = some i then (.ok true, none)
    else
      match reads with
      | [] => (.ok false, some written)
      | none :: _ => (.error (), some written)
      | some c :: rest => copyLoop stopAt (i + 1) (written + c) rest

/-- `copy_large_file_with_progress`: run the loop from the start of the
file. -/
def copy_large_file_with_progress (stopAt : Option Nat)
    (reads : List (Option Nat)) : Except Unit Bool × Option Nat :=
  copyLoop stopAt 0 0 reads

/-- Terminal report of `run_sync` (sync.rs lines 423-429). -/
inductive RunOutcome where
  | complete
  | stopped
deriving DecidableEq, Repr

/-- A stopped run reports `Stopped` to the caller, otherwise `Complete`. -/
def runTerminalOutcome (wasStopped : Bool) : RunOutcome :=
  if wasStopped then .stopped else .complete

theorem copyLoop_stop (k : Nat) : ∀ (i written : Nat) (reads : List (Option Nat)),
    k ≤ reads.length → (∀ j ∈ reads.take k, j.isSome = true) →
    copyLoop (some (i + k)) i written reads = (.ok true, none) := by
  induction k with
  | zero =>
    intro i written reads _ _
    cases reads with
    | nil => simp [copyLoop]
    | cons h t => cases h <;> simp [copyLoop]
  | succ n ih =>
    intro i written reads hlen hsome
    cases reads with
    | nil => simp at hlen
    | cons r rest =>
      have hne : ¬(some (i + (n + 1)) = some i) := by
        intro hcontra
        have heq : i + (n + 1) = i := Option.some.inj hcontra
        omega
      cases r with
      | none =>
        have := hsome none (by simp [List.take])
        simp at this
      | some c =>
        rw [copyLoop, if_neg hne]
        have harith : i + (n + 1) = (i + 1) + n := by omega
        rw [harith]
        exact ih (i + 1) (written + c) rest (by simpa using hlen)
          (fun j hj => hsome j (by simp [List.take]; exact Or.inr hj))

/-- Claim C7: a Stop received at any loop iteration before the copy has
finished makes the engine delete the partially written destination file
and return a stopped result, and a stopped run terminates with `Stopped`,
never `Complete`. -/
theorem copy_cancel_no_partial_file (reads : List (Option Nat)) (i : Nat)
    (hlen : i ≤ reads.length)
    (hok : ∀ j ∈ reads.take i, j.isSome = true) :
    copy_large_file_with_progress (some i) reads = (.ok true, none)
    ∧ runTerminalOutcome true = RunOutcome.stopped
    ∧ runTerminalOutcome true ≠ RunOutcome.complete := by
  refine ⟨?_, rfl, fun h => RunOutcome.noConfusion h⟩
  have h := copyLoop_stop i 0 0 reads hlen hok
  simpa [copy_large_file_with_progress] using h

/-- Concrete instance of `copy_cancel_no_partial_file`: Stop arrives after
the first 64 KB chunk of a three-chunk file; no destination file is left.
-/
theorem copy_cancel_no_partial_file_witness :
    copy_large_file_with_progress (some 1) [some 65536, some 65536, some 1024]
      = (.ok true, none) := by
  exact (copy_cancel_no_partial_file [some 65536, some 65536, some 1024] 1
    (by decide) (by decide)).1

/-!  End-of-run baseline (sync.rs lines 189, 332-335 and 396-405). -/

/-- The `skipped_files` set accumulated by the executor: exactly the paths
of Conflict actions whose resolution was `Skip` (sync.rs line 333). -/
def skippedFiles (plan : List SyncAction) (resolve : Path → Resolution) : List Path :=
  plan.filterMap (fun a =>
    match a with
    | .Conflict p => if resolve p = .Skip then some p else none
    | _ => none)

/-- Baseline persisted at the end of a completed run (sync.rs 400-402):
the final local re-scan with the skipped paths removed from its file map,
directories kept as scanned. -/
def finalizeBaseline (finalScan : SyncData) (skipped : List Path) : SyncData :=
  { files := finalScan.files.filter (fun kv => !(skipped.contains kv.1))
  , directories := finalScan.directories }

theorem mem_skippedFiles (plan : List SyncAction) (resolve : Path → Resolution)
    (p : Path) :
    p ∈ skippedFiles plan resolve ↔
      SyncAction.Conflict p ∈ plan ∧ resolve p = Resolution.Skip := by
  simp only [skippedFiles, List.mem_filterMap]
  constructor
  · rintro ⟨a, ha, hfa⟩
    cases a <;> simp only at hfa <;> try cases hfa
    rename_i q
    by_cases hr : resolve q = Resolution.Skip
    · rw [if_pos hr] at hfa
      cases hfa
      exact ⟨ha, hr⟩
    · rw [if_neg hr] at hfa
      cases hfa
  · rintro ⟨ha, hr⟩
    exact ⟨SyncAction.Conflict p, ha, by simp [hr]⟩

theorem lookupFile_filter_skipped (files : List (Path × FileInfo))
    (skipped : List Path) (p : Path) :
    lookupFile (files.filter (fun kv => !(skipped.contains kv.1))) p
      = if skipped.contains p then none else lookupFile files p := by
  induction files with
  | nil => simp [lookupFile]
  | cons kv rest ih =>
    obtain ⟨k, v⟩ := kv
    simp only [List.elem_eq_mem] at ih ⊢
    by_cases hp : k = p
    · subst hp
      by_cases hk : k ∈ skipped
      · simp [List.filter_cons, lookupFile, hk, ih]
      · simp [List.filter_cons, lookupFile, hk, ih]
    · by_cases hk : k ∈ skipped
      · simp [List.filter_cons, lookupFile, hk, hp, ih]
      · simp [List.filter_cons, lookupFile, hk, hp, ih]

theorem lookupFile_mem {files : List (Path × FileInfo)} {p : Path} {v : FileInfo}
    (h : lookupFile files p = some v) : (p, v) ∈ files := by
  induction files with
  | nil => cases h
  | cons kv rest ih =>
    obtain ⟨k, w⟩ := kv
    by_cases hk : k = p
    · subst hk
      rw [lookupFile, if_pos rfl] at h
      cases h
      exact List.mem_cons_self _ _
    · rw [lookupFile, if_neg hk] at h
      exact List.mem_cons_of_mem _ (ih h)

theorem processEntry_empty_fresh {dg : Content → String} {e : ScanEntry}
    {kv : Path × FileInfo}
    (h : processEntry dg emptySyncData e = some (Sum.inr kv)) :
    ∃ c, e.content = some c ∧ kv.1 = e.relPath ∧ kv.2.hash = dg c := by
  simp only [processEntry, emptySyncData, lookupFile] at h
  split_ifs at h <;> try cases h
  cases hc : e.content with
  | none =>
    rw [hc] at h
    cases h
  | some c =>
    rw [hc] at h
    cases h
    exact ⟨c, rfl, rfl, rfl⟩

/-- Claim C6: after a completed run the persisted baseline is exactly the
fresh forced-re-hash scan of the final local tree minus the Skip-resolved
conflict paths: the skipped set is precisely the Skip-resolved Conflict
paths of the plan, those paths are absent from the baseline, every other
path carries over the scanned record unchanged (directories untouched),
and every record of that final scan was hashed from current content (the
scan runs against the empty baseline, so the hash cache can never hit). -/
theorem baseline_reflects_final_scan (plan : List SyncAction)
    (resolve : Path → Resolution) (dg : Content → String)
    (entries : List ScanEntry) (p : Path) :
    (p ∈ skippedFiles plan resolve ↔
      SyncAction.Conflict p ∈ plan ∧ resolve p = Resolution.Skip)
    ∧ (p ∈ skippedFiles plan resolve →
      lookupFile (finalizeBaseline (scanDirectory dg emptySyncData entries)
        (skippedFiles plan resolve)).files p = none)
    ∧ (p ∉ skippedFiles plan resolve →
      lookupFile (finalizeBaseline (scanDirectory dg emptySyncData entries)
        (skippedFiles plan resolve)).files p
        = lookupFile (scanDirectory dg emptySyncData entries).files p)
    ∧ (finalizeBaseline (scanDirectory dg emptySyncData entries)
        (skippedFiles plan resolve)).directories
        = (scanDirectory dg emptySyncData entries).directories
    ∧ (∀ info, lookupFile (scanDirectory dg emptySyncData entries).files p = some info →
      ∃ e ∈ entries, ∃ c, e.relPath = p ∧ e.content = some c ∧ info.hash = dg c) := by
  refine ⟨mem_skippedFiles plan resolve p, fun hp => ?_, fun hp => ?_, rfl, fun info hinfo => ?_⟩
  · rw [finalizeBaseline, lookupFile_filter_skipped,
      if_pos (List.elem_iff.mpr hp)]
  · rw [finalizeBaseline, lookupFile_filter_skipped, if_neg]
    intro hc
    exact hp (List.elem_iff.mp hc)
  · have hmem := lookupFile_mem hinfo
    simp only [scanDirectory, List.mem_filterMap] at hmem
    obtain ⟨e, he, hpe⟩ := hmem
    cases hcase : processEntry dg emptySyncData e with
    | none => rw [hcase] at hpe; cases hpe
    | some s =>
      cases s with
      | inl d => rw [hcase] at hpe; cases hpe
      | inr kv =>
        rw [hcase] at hpe
        cases hpe
        obtain ⟨c, hc, hk, hh⟩ := processEntry_empty_fresh hcase
        exact ⟨e, he, c, by rw [← hk], hc, hh⟩

/-- Concrete instance of `baseline_reflects_final_scan`: a Skip-resolved
conflict path is absent from the persisted baseline. -/
theorem baseline_reflects_final_scan_witness :
    lookupFile (finalizeBaseline
      (scanDirectory (fun _ => "d") emptySyncData [])
      (skippedFiles [SyncAction.Conflict ["s.txt"]] (fun _ => Resolution.Skip))).files
      ["s.txt"] = none := by
  exact (baseline_reflects_final_scan [SyncAction.Conflict ["s.txt"]]
    (fun _ => Resolution.Skip) (fun _ => "d") [] ["s.txt"]).2.1 (by decide)

/-!  Empty-ancestor cleanup after a confirmed file deletion
(utils.rs, `cleanup_empty_dirs`; called from the confirmed `DeleteLocal`
and `DeleteRemote` arms of `run_sync`, sync.rs lines 269-298).  One tree
is the list of relative paths of everything that exists under its root
(files and directories); the root itself is the empty path and is not
listed. -/

/-- `read_dir(...).next().is_none()`: directory `d` has no entry. -/
def isEmptyDir (fs : List Path) (d : Path) : Bool :=
  !(fs.any (fun q => parentPath q == d))

/-- The upward walk of `cleanup_empty_dirs`: stop at the root, fail
(`none`, the propagated `read_dir` error) on a missing directory, remove
an empty directory and continue with its parent, stop at the first
non-empty directory. -/
def cleanupGo (fs : List Path) (dir : Path) : Option (List Path) :=
  if dir = [] then some fs
  else if dir ∈ fs then
    if isEmptyDir fs dir then cleanupGo (fs.erase dir) (parentPath dir)
    else some fs
  else none
termination_by dir.length
decreasing_by
  simp only [parentPath, List.length_dropLast]
  have hpos : 0 < dir.length := by
    cases dir with
    | nil => simp_all
    | cons x xs => simp
  omega

/-- `cleanup_empty_dirs`: walk up from the deleted file's parent. -/
def cleanup_empty_dirs (fs : List Path) (start : Path) : Option (List Path) :=
  cleanupGo fs (parentPath start)

/-- Confirmed-deletion arm for a local file (sync.rs lines 279-298):
remove the file if it exists, then clean up empty ancestors; the remote
tree is not touched.  A denied confirmation changes nothing. -/
def execDeleteLocal (localFs remoteFs : List Path) (p : Path) (confirmed : Bool) :
    Option (List Path × List Path) :=
  if confirmed then
    if p ∈ localFs then
      (cleanup_empty_dirs (localFs.erase p) p).map (fun l2 => (l2, remoteFs))
    else some (localFs, remoteFs)
  else some (localFs, remoteFs)

/-- Mirror arm for a remote file (sync.rs lines 259-278). -/
def execDeleteRemote (localFs remoteFs : List Path) (p : Path) (confirmed : Bool) :
    Option (List Path × List Path) :=
  if confirmed then
    if p ∈ remoteFs then
      (cleanup_empty_dirs (remoteFs.erase p) p).map (fun r2 => (localFs, r2))
    else some (localFs, remoteFs)
  else some (localFs, remoteFs)

theorem isEmptyDir_no_child {fs : List Path} {d : Path} (h : isEmptyDir fs d = true)
    {c : Path} (hc : c ∈ fs) : parentPath c ≠ d := by
  intro hpar
  rw [isEmptyDir, Bool.not_eq_true', List.any_eq_false] at h
  have hfalse := h c hc
  simp [hpar] at hfalse

theorem isEmptyDir_false_child {fs : List Path} {d : Path}
    (h : isEmptyDir fs d = false) : ∃ c ∈ fs, parentPath c = d := by
  rw [isEmptyDir, Bool.not_eq_false'] at h
  obtain ⟨c, hc, hbeq⟩ := List.any_eq_true.mp h
  exact ⟨c, hc, by simpa using hbeq⟩

theorem startsWith_concat (as : Path) (a : String) :
    startsWith (as ++ [a]) as = true := by
  have h := startsWith_dropLast (as ++ [a])
  rwa [List.dropLast_concat] at h

/-- Behaviour of the cleanup walk from directory `dir`, provided the whole
ancestor chain up to `dir` exists (`hch`) and the tree has no duplicate
entries: the walk succeeds, only removes entries, removes only nonempty
ancestors-or-self of `dir`, never removes a directory with a surviving
child off the chain, removals are contiguous from the bottom of the chain,
and — completeness — any chain directory all of whose children in the tree
are removed chain elements is itself removed (so a childless chain
directory is always removed). -/
theorem cleanupGo_spec (dir : Path) : ∀ fs : List Path, fs.Nodup →
    (∀ q, q ≠ [] → startsWith dir q = true → q ∈ fs) →
    ∃ fs2, cleanupGo fs dir = some fs2
      ∧ (∀ q, q ∈ fs2 → q ∈ fs)
      ∧ (∀ q, q ∈ fs → q ∉ fs2 → q ≠ [] ∧ startsWith dir q = true)
      ∧ (∀ q, q ∈ fs →
          (∃ c, c ∈ fs ∧ parentPath c = q ∧ startsWith dir c = false) → q ∈ fs2)
      ∧ (∀ d e, d ∈ fs → startsWith dir d = true → d ∉ fs2 →
          e ∈ fs → startsWith dir e = true → startsWith e d = true → e ∉ fs2)
      ∧ (∀ d, d ≠ [] → startsWith dir d = true →
          (∀ c, c ∈ fs → parentPath c = d → startsWith dir c = true ∧ c ∉ fs2) →
          d ∉ fs2) := by
  induction dir using List.reverseRecOn with
  | nil =>
    intro fs hnd _
    refine ⟨fs, by rw [cleanupGo]; simp, fun q h => h, fun q hq hnq => absurd hq hnq,
      fun q hq _ => hq, fun d e hdin _ hdnot _ _ _ => absurd hdin hdnot,
      fun d hdne hsw _ => absurd (startsWith_nil_eq hsw) hdne⟩
  | append_singleton as a ih =>
    intro fs hnd hch
    have hdir_ne : as ++ [a] ≠ [] := by simp
    have hdirfs : as ++ [a] ∈ fs := hch (as ++ [a]) hdir_ne (startsWith_refl (as ++ [a]))
    have hdir_as : startsWith (as ++ [a]) as = true := startsWith_concat as a
    have hpp : parentPath (as ++ [a]) = as := by
      simp [parentPath]
    by_cases hemp : isEmptyDir fs (as ++ [a]) = true
    · have hnd2 : (fs.erase (as ++ [a])).Nodup := hnd.erase (as ++ [a])
      have hch2 : ∀ q, q ≠ [] → startsWith as q = true → q ∈ fs.erase (as ++ [a]) := by
        intro q hq hsw
        have hqfs : q ∈ fs := hch q hq (startsWith_trans hdir_as hsw)
        have hlq : q.length ≤ as.length := startsWith_length hsw
        have hqne : q ≠ as ++ [a] := by
          intro hcontra
          rw [hcontra] at hlq
          simp at hlq
        exact (List.mem_erase_of_ne hqne).mpr hqfs
      obtain ⟨fs2, hrun, ha, hb, hc, hd, hcomp⟩ := ih (fs.erase (as ++ [a])) hnd2 hch2
      have hrun2 : cleanupGo fs (as ++ [a]) = some fs2 := by
        rw [cleanupGo, if_neg hdir_ne, if_pos hdirfs, if_pos hemp, hpp]
        exact hrun
      refine ⟨fs2, hrun2, ?_, ?_, ?_, ?_, ?_⟩
      · exact fun q hq => List.erase_subset (as ++ [a]) fs (ha q hq)
      · intro q hq hnq
        by_cases hqd : q = as ++ [a]
        · exact ⟨by rw [hqd]; exact hdir_ne, by rw [hqd]; exact startsWith_refl _⟩
        · have hq2 := (List.mem_erase_of_ne hqd).mpr hq
          obtain ⟨hne, hsw⟩ := hb q hq2 hnq
          exact ⟨hne, startsWith_trans hdir_as hsw⟩
      · rintro q hq ⟨c, hcfs, hcpar, hcns⟩
        have hqd : q ≠ as ++ [a] := by
          intro hcontra
          exact isEmptyDir_no_child hemp hcfs (hcontra ▸ hcpar)
        have hcd : c ≠ as ++ [a] := by
          intro hcontra
          rw [hcontra, startsWith_refl (as ++ [a])] at hcns
          cases hcns
        have hcns2 : startsWith as c = false := by
          rcases Bool.eq_false_or_eq_true (startsWith as c) with ht | hf
          · rw [startsWith_trans hdir_as ht] at hcns
            cases hcns
          · exact hf
        exact hc q ((List.mem_erase_of_ne hqd).mpr hq)
          ⟨c, (List.mem_erase_of_ne hcd).mpr hcfs, hcpar, hcns2⟩
      · intro d0 e hd0fs hswd hnd0 hefs hswe hswed
        by_cases hed : e = as ++ [a]
        · intro hmem
          have hmem2 := ha e hmem
          rw [hed] at hmem2
          exact hnd.not_mem_erase hmem2
        · have hswe2 : startsWith as e = true := by
            have h2 := startsWith_dropLast_of_ne hswe hed
            rwa [show (as ++ [a]).dropLast = as from by simp] at h2
          by_cases hdd : d0 = as ++ [a]
          · have he2 : e = d0 := startsWith_antisymm hswed (hdd ▸ hswe)
            exact absurd (he2.trans hdd) hed
          · exact hd d0 e ((List.mem_erase_of_ne hdd).mpr hd0fs)
              (by
                have h3 := startsWith_dropLast_of_ne hswd hdd
                rwa [show (as ++ [a]).dropLast = as from by simp] at h3)
              hnd0 ((List.mem_erase_of_ne hed).mpr hefs) hswe2 hswed
      · intro d hdne hsw H
        by_cases hdd : d = as ++ [a]
        · intro hmem
          have h2 := ha d hmem
          rw [hdd] at h2
          exact hnd.not_mem_erase h2
        · have hsw2 : startsWith as d = true := by
            have h3 := startsWith_dropLast_of_ne hsw hdd
            rwa [show (as ++ [a]).dropLast = as from by simp] at h3
          apply hcomp d hdne hsw2
          intro c hcer hpar
          have hcfs : c ∈ fs := List.erase_subset _ _ hcer
          obtain ⟨hswc, hcnot⟩ := H c hcfs hpar
          have hcne : c ≠ as ++ [a] := ((hnd.mem_erase_iff).mp hcer).1
          refine ⟨?_, hcnot⟩
          have h4 := startsWith_dropLast_of_ne hswc hcne
          rwa [show (as ++ [a]).dropLast = as from by simp] at h4
    · have hrun2 : cleanupGo fs (as ++ [a]) = some fs := by
        rw [cleanupGo, if_neg hdir_ne, if_pos hdirfs, if_neg hemp]
      refine ⟨fs, hrun2, fun q h => h, fun q hq hnq => absurd hq hnq,
        fun q hq _ => hq, fun d0 e hdin _ hdnot _ _ _ => absurd hdin hdnot, ?_⟩
      intro d hdne hsw H
      by_cases hdd : d = as ++ [a]
      · obtain ⟨c0, hc0, hc0p⟩ := isEmptyDir_false_child (Bool.eq_false_iff.mpr hemp)
        have hH := H c0 hc0 (by rw [hc0p, hdd])
        exact absurd hc0 hH.2
      · have htake : (as ++ [a]).take d.length = d := startsWith_iff_take.mp hsw
        have hlt : d.length < (as ++ [a]).length := startsWith_length_lt hsw hdd
        have hlen_e : ((as ++ [a]).take (d.length + 1)).length = d.length + 1 := by
          rw [List.length_take]
          omega
        have he_sw : startsWith (as ++ [a]) ((as ++ [a]).take (d.length + 1)) = true := by
          apply startsWith_iff_take.mpr
          rw [hlen_e]
        have he_ne : (as ++ [a]).take (d.length + 1) ≠ [] := by
          intro hcon
          have hlc := congrArg List.length hcon
          rw [hlen_e] at hlc
          simp at hlc
        have he_par : parentPath ((as ++ [a]).take (d.length + 1)) = d := by
          simp only [parentPath]
          rw [List.dropLast_eq_take, hlen_e, List.take_take]
          have hmin : min (d.length + 1 - 1) (d.length + 1) = d.length := by omega
          rw [hmin, htake]
        have he_fs := hch _ he_ne he_sw
        have hH := H _ he_fs he_par
        exact absurd he_fs hH.2

/-- Claim C10: after a confirmed `DeleteLocal`, the executor removes
exactly the chain of newly empty ancestor directories of the deleted file,
walking upward: the result exists and only loses entries, every removed
entry is a nonempty ancestor of the file's parent directory (the tree root
is never removed), a directory keeping a child off the chain is never
removed (the walk stops at the first non-empty ancestor), removals are
contiguous from the bottom, and — completeness — an ancestor all of whose
children were removed chain elements is itself removed; in particular the
file's parent directory, when it became empty, is removed.  The other
tree is never touched (by either deletion arm), and a denied confirmation
changes nothing. -/
theorem delete_cleanup_spec (localFs remoteFs : List Path) (p : Path)
    (hnd : localFs.Nodup)
    (hch : ∀ q, q ≠ [] → startsWith (parentPath p) q = true → q ∈ localFs.erase p) :
    (p ∈ localFs → ∃ l2,
      execDeleteLocal localFs remoteFs p true = some (l2, remoteFs)
      ∧ (∀ q, q ∈ l2 → q ∈ localFs.erase p)
      ∧ (∀ q, q ∈ localFs.erase p → q ∉ l2 →
          q ≠ [] ∧ startsWith (parentPath p) q = true)
      ∧ (∀ q, q ∈ localFs.erase p →
          (∃ c, c ∈ localFs.erase p ∧ parentPath c = q ∧
            startsWith (parentPath p) c = false) → q ∈ l2)
      ∧ (∀ d e, d ∈ localFs.erase p → startsWith (parentPath p) d = true → d ∉ l2 →
          e ∈ localFs.erase p → startsWith (parentPath p) e = true →
          startsWith e d = true → e ∉ l2)
      ∧ (∀ d, d ≠ [] → startsWith (parentPath p) d = true →
          (∀ c, c ∈ localFs.erase p → parentPath c = d →
            startsWith (parentPath p) c = true ∧ c ∉ l2) →
          d ∉ l2)
      ∧ (parentPath p ≠ [] → isEmptyDir (localFs.erase p) (parentPath p) = true →
          parentPath p ∉ l2))
    ∧ (∀ lf rf q c res, execDeleteLocal lf rf q c = some res → res.2 = rf)
    ∧ (∀ lf rf q c res, execDeleteRemote lf rf q c = some res → res.1 = lf)
    ∧ execDeleteLocal localFs remoteFs p false = some (localFs, remoteFs) := by
  refine ⟨fun hp => ?_, ?_, ?_, by simp [execDeleteLocal]⟩
  · obtain ⟨fs2, hrun, ha, hb, hc, hd, hcomp⟩ :=
      cleanupGo_spec (parentPath p) (localFs.erase p) (hnd.erase p) hch
    refine ⟨fs2, ?_, ha, hb, hc, hd, hcomp, fun hne hempt => ?_⟩
    · simp [execDeleteLocal, hp, cleanup_empty_dirs, hrun]
    · apply hcomp (parentPath p) hne (startsWith_refl _)
      intro c hcf hpar
      exact absurd hpar (isEmptyDir_no_child hempt hcf)
  · intro lf rf q c res h
    simp only [execDeleteLocal] at h
    split_ifs at h
    · cases hcl : cleanupGo (lf.erase q) (parentPath q) with
      | none =>
        rw [cleanup_empty_dirs, hcl] at h
        cases h
      | some l2 =>
        rw [cleanup_empty_dirs, hcl] at h
        cases h
        rfl
    · cases h
      rfl
    · cases h
      rfl
  · intro lf rf q c res h
    simp only [execDeleteRemote] at h
    split_ifs at h
    · cases hcl : cleanupGo (rf.erase q) (parentPath q) with
      | none =>
        rw [cleanup_empty_dirs, hcl] at h
        cases h
      | some r2 =>
        rw [cleanup_empty_dirs, hcl] at h
        cases h
        rfl
    · cases h
      rfl
    · cases h
      rfl

/-- Concrete instance of `delete_cleanup_spec`: deleting the only file of
directory `a` removes the now-empty directory `a` as well, leaving the
local tree empty and the remote tree untouched. -/
theorem delete_cleanup_spec_witness :
    execDeleteLocal [["a"], ["a", "f.txt"]] [["r"]] ["a", "f.txt"] true
      = some ([], [["r"]]) := by
  obtain ⟨l2, hrun, hsub, _, _, _, _, hpar⟩ :=
    (delete_cleanup_spec [["a"], ["a", "f.txt"]] [["r"]] ["a", "f.txt"] (by decide)
      (by
        intro q hq hsw
        cases q with
        | nil => exact absurd rfl hq
        | cons x xs =>
          cases xs with
          | nil =>
            have hx : "a" = x := by simpa [startsWith] using hsw
            rw [← hx]
            decide
          | cons y ys => simp [startsWith] at hsw)).1 (by decide)
  have hnot : (["a"] : Path) ∉ l2 := hpar (by decide) (by decide)
  have hl2 : l2 = [] := by
    rw [List.eq_nil_iff_forall_not_mem]
    intro q hq
    have hq2 := hsub q hq
    rw [show ([["a"], ["a", "f.txt"]] : List Path).erase ["a", "f.txt"] = [["a"]]
      from by decide] at hq2
    rw [List.mem_singleton] at hq2
    rw [hq2] at hq
    exact hnot hq
  rw [hl2] at hrun
  exact hrun

end SyncU
